import Mathlib

/-!
Verification of the decode → extract → filter → suppress pipeline of
src/native/yolofastnms/src/lib.rs (a YOLO post-processing library: binary
tensor decoding, optional transpose, best-class extraction, confidence
filtering and class-wise non-maximum suppression).

Modelling conventions, applied uniformly:
  * f32 values are modelled as exact rationals (ℚ).  All comparisons and the
    max-folds of the source are order-theoretic and carry over verbatim; the
    single f32 division in calc_iou is modelled as exact rational division of
    its two integer operands.
  * i32 is modelled as ℤ.  Rust integer division truncates toward zero, which
    is Int.tdiv (not the default ediv of ℤ).
  * u16: the source stores the winning class index as `i as u16`, a wrapping
    cast; this is modelled by reducing the index modulo 65536 at the point of
    the cast.  BBox.cls is ℕ (the set of u16 values embeds into ℕ).
  * Rust panics (failed assert!, out-of-bounds indexing, `% 0`) abort the NIF
    call; a function that can panic is modelled as returning an Option, with
    none for every panicking execution.
  * The source iterates over a std HashSet<u16> whose iteration order is a
    randomized implementation artifact.  The model enumerates the distinct
    classes in ascending order; every property proved about nms below is
    invariant under the enumeration order of the distinct classes.
-/

/-- The BBox struct of the source.  The field `class` of the source is named
`cls` here because `class` is a Lean keyword. -/
structure BBox where
  prob : ℚ
  cls : ℕ
  cx : ℤ
  cy : ℤ
  w : ℤ
  h : ℤ
  deriving DecidableEq

/-- f32::MIN, the least finite f32, exactly -(2^24 - 1) * 2^104. -/
def f32MIN : ℚ := -((2 ^ 24 - 1) * 2 ^ 104)

/-- f32::round of Rust: round half away from zero. -/
def rustRound (q : ℚ) : ℤ := if 0 ≤ q then ⌊q + 1 / 2⌋ else -⌊-q + 1 / 2⌋

/-- The enumerate().fold of bbox_from_row: scan the score sub-vector with the
running best (max_prob, max_class), starting from (f32::MIN, 0); a score wins
only when strictly greater than the running best; the winning index is stored
through the `as u16` wrapping cast (modulo 65536). -/
def best_class : List ℚ → ℚ → ℕ → ℕ → ℚ × ℕ
  | [], max_prob, max_class, _ => (max_prob, max_class)
  | p :: rest, max_prob, max_class, i =>
    if p > max_prob then best_class rest p (i % 65536) (i + 1)
    else best_class rest max_prob max_class (i + 1)

/-- bbox_from_row of the source.  The source indexes row[0]..row[3] (panicking
when the row is shorter than 4, modelled as none) and folds over row[4..]. -/
def bbox_from_row (row : List ℚ) : Option BBox :=
  match row with
  | x0 :: x1 :: x2 :: x3 :: scores =>
    some { prob := (best_class scores f32MIN 0 0).1
           cls := (best_class scores f32MIN 0 0).2
           cx := rustRound x0
           cy := rustRound x1
           w := rustRound x2
           h := rustRound x3 }
  | _ => none

/-- matrix_to_bboxes of the source: one BBox per row; a panic in any row
aborts the call. -/
def matrix_to_bboxes (matrix : List (List ℚ)) : Option (List BBox) :=
  matrix.mapM bbox_from_row

/-- slice::chunks of Rust (for a positive chunk size): successive chunks of n
elements, the last possibly shorter.  (The source only reaches it with n > 0
and n dividing the length.) -/
def listChunks (n : ℕ) (l : List ℕ) : List (List ℕ) :=
  if h : n = 0 ∨ l = [] then [] else l.take n :: listChunks n (l.drop n)
  termination_by l.length
  decreasing_by
    simp only [List.length_drop]
    rcases Nat.eq_zero_or_pos n with h0 | h0
    · exact absurd (Or.inl h0) h
    · have hl : l ≠ [] := fun he => h (Or.inr he)
      have : 0 < l.length := List.length_pos.mpr hl
      omega

/-- binary_to_matrix of the source.  The byte buffer is a list of bytes (ℕ);
f32::from_ne_bytes is abstracted by the parameter `decode`, mapping the four
bytes of one float to its value (native byte order is a platform artifact the
model keeps abstract).  The three assert! failures, the `% 0` panic and the
chunks(0) panic all abort the call and are collapsed into none; when every
check passes the result mirrors chunks(row_size) / chunks(4) / decode. -/
def binary_to_matrix (decode : List ℕ → ℚ) (binary : List ℕ)
    (rows columns : ℕ) : Option (List (List ℚ)) :=
  let f32size := 4
  let row_size := columns * f32size
  if row_size = 0 then none
  else if binary.length ≠ rows * row_size then none
  else if binary.length < row_size then none
  else if binary.length % row_size ≠ 0 then none
  else some ((listChunks row_size binary).map
    (fun chunk => (listChunks f32size chunk).map decode))

/-- The column count the source reads off a matrix:
`if rows > 0 { matrix[0].len() } else { 0 }`. -/
def matCols (matrix : List (List ℚ)) : ℕ :=
  match matrix with
  | [] => 0
  | r :: _ => r.length

/-- transpose_matrix of the source: an output of matCols rows, each of length
rows, with transposed[j][i] = matrix[i][j].  (On a ragged matrix whose later
rows are shorter than row 0 the source panics; the model is used, as the
source is, only on matrices of constant row length, where getD never takes
its default.) -/
def transpose_matrix (matrix : List (List ℚ)) : List (List ℚ) :=
  (List.range (matCols matrix)).map
    (fun j => (List.range matrix.length).map (fun i => (matrix.getD i []).getD j 0))

/-- calc_iou of the source, with Rust i32 division `w / 2` rendered as
Int.tdiv (truncation toward zero). -/
def calc_iou (a b : BBox) : ℚ :=
  let x1 := max (a.cx - Int.tdiv a.w 2) (b.cx - Int.tdiv b.w 2)
  let y1 := max (a.cy - Int.tdiv a.h 2) (b.cy - Int.tdiv b.h 2)
  let x2 := min (a.cx + Int.tdiv a.w 2) (b.cx + Int.tdiv b.w 2)
  let y2 := min (a.cy + Int.tdiv a.h 2) (b.cy + Int.tdiv b.h 2)
  let intersection_area := max (x2 - x1) 0 * max (y2 - y1) 0
  let a_area := a.w * a.h
  let b_area := b.w * b.h
  let union_area := a_area + b_area - intersection_area
  if union_area = 0 then 0
  else (intersection_area : ℚ) / (union_area : ℚ)

/-- The descending-probability order used by sorted_boxes_filtered_by_class:
`b.prob.partial_cmp(&a.prob)` never sees a NaN in the rational model, so the
sort comparator is the total order below. -/
def probGE (a b : BBox) : Prop := b.prob ≤ a.prob

instance : DecidableRel probGE :=
  fun a b => inferInstanceAs (Decidable (b.prob ≤ a.prob))

instance : IsTotal BBox probGE := ⟨fun a b => le_total b.prob a.prob⟩

instance : IsTrans BBox probGE := ⟨fun _ _ _ h1 h2 => le_trans h2 h1⟩

/-- sorted_boxes_filtered_by_class of the source: the boxes of one class,
sorted by descending prob (Rust sort_by is a stable sort; insertionSort is the
stable sort of Mathlib). -/
def sorted_boxes_filtered_by_class (bboxes : List BBox) (c : ℕ) : List BBox :=
  List.insertionSort probGE (bboxes.filter (fun b => b.cls == c))

/-- get_classes of the source returns the HashSet of the distinct class
values.  Its iteration order is a randomized artifact; the model enumerates
the same distinct classes in ascending order (every nms property proved below
is order-invariant). -/
def get_classes (boxes : List BBox) : List ℕ :=
  List.insertionSort (· ≤ ·) (boxes.map BBox.cls).dedup

/-- The inner loop of nms: the running max_iou starts at 0.0 and takes
calc_iou(bbox, kb).max(max_iou) over the kept boxes kb. -/
def max_iou_fold (b : BBox) (kept : List BBox) : ℚ :=
  kept.foldl (fun m kb => max (calc_iou b kb) m) 0

/-- One step of the nms walk: the candidate is appended to the kept list
exactly when max_iou <= iou_threshold. -/
def nms_step (iou_threshold : ℚ) (kept : List BBox) (b : BBox) : List BBox :=
  if max_iou_fold b kept ≤ iou_threshold then kept ++ [b] else kept

/-- The kept list of one class: the walk over the descending-sorted class
boxes, starting from an empty kept list. -/
def nms_class (bboxes : List BBox) (iou_threshold : ℚ) (c : ℕ) : List BBox :=
  (sorted_boxes_filtered_by_class bboxes c).foldl (nms_step iou_threshold) []

/-- nms of the source: for each distinct class the kept list is computed and
appended (final_boxes.extend) to the result, i.e. the result is the
concatenation of the per-class kept lists in class enumeration order. -/
def nms (bboxes : List BBox) (iou_threshold : ℚ) : List BBox :=
  ((get_classes bboxes).map (nms_class bboxes iou_threshold)).flatten

/-- A fixed default box (only used as the default of getD in statements that
index into nms output; the indices are always in bounds there). -/
def defaultBBox : BBox := ⟨0, 0, 0, 0, 0, 0⟩

/-- A fixed trivial byte decoder, used to instantiate the decode parameter of
binary_to_matrix in closed statements. -/
def decode0 : List ℕ → ℚ := fun _ => 0

/-! Spec-side definitions, written from the words of the specification (§4.6
and the claims), to be compared with the source-side calc_iou above. -/

/-- Spec wording: left corner `cx - w/2` with truncating integer division. -/
def box_x1 (b : BBox) : ℤ := b.cx - Int.tdiv b.w 2

/-- Spec wording: right corner `cx + w/2`. -/
def box_x2 (b : BBox) : ℤ := b.cx + Int.tdiv b.w 2

/-- Spec wording: bottom corner `cy - h/2`. -/
def box_y1 (b : BBox) : ℤ := b.cy - Int.tdiv b.h 2

/-- Spec wording: top corner `cy + h/2`. -/
def box_y2 (b : BBox) : ℤ := b.cy + Int.tdiv b.h 2

/-- Spec wording: intersection width `max(0, min(a.x2,b.x2) - max(a.x1,b.x1))`. -/
def inter_w (a b : BBox) : ℤ := max 0 (min (box_x2 a) (box_x2 b) - max (box_x1 a) (box_x1 b))

/-- Spec wording: intersection height, analogous to the width. -/
def inter_h (a b : BBox) : ℤ := max 0 (min (box_y2 a) (box_y2 b) - max (box_y1 a) (box_y1 b))

/-- Spec wording: intersection area = width × height, in integer arithmetic. -/
def intersection_area (a b : BBox) : ℤ := inter_w a b * inter_h a b

/-- Spec wording: union area = `w_a*h_a + w_b*h_b - intersection_area`. -/
def union_area (a b : BBox) : ℤ := a.w * a.h + b.w * b.h - intersection_area a b

/-- Spec wording: `intersection_area / union_area` as a (here: exact rational)
number, except exactly 0.0 when the union area is exactly 0. -/
def spec_iou (a b : BBox) : ℚ :=
  if union_area a b = 0 then 0
  else (intersection_area a b : ℚ) / (union_area a b : ℚ)

/-- Spec wording of the C1 walk: the maximum IoU of the candidate against
every box already kept, 0.0 when the kept list is empty. -/
def spec_max_iou (b : BBox) (kept : List BBox) : ℚ :=
  match kept.map (calc_iou b) with
  | [] => 0
  | x :: xs => xs.foldl max x

/-! Concrete boxes, rows and matrices used in the closed counterexample and
witness statements below. -/

/-- Class-5 box at the origin, extent 2×2 (corners [-1,1]×[-1,1]), prob 2. -/
def W1 : BBox := ⟨2, 5, 0, 0, 2, 2⟩

/-- Class-5 box at (10,10), extent 2×2 — disjoint from W1, IoU 0 — prob 1. -/
def W2 : BBox := ⟨1, 5, 10, 10, 2, 2⟩

/-- Class-5 box with the geometry of W1 (IoU 1 against W1), prob 1. -/
def W3 : BBox := ⟨1, 5, 0, 0, 2, 2⟩

/-- Class-0 box at the origin, extent 2×2, prob 2. -/
def A2 : BBox := ⟨2, 0, 0, 0, 2, 2⟩

/-- Class-1 box with the geometry of A2 (IoU 1 against A2), prob 1. -/
def B2 : BBox := ⟨1, 1, 0, 0, 2, 2⟩

/-- A matrix row with 65537 scores: 65536 zeros and then a single 1.  Its
only maximal score sits at score index 65536, which the u16 cast of the
source wraps to class 0. -/
def bigRow : List ℚ := [0, 0, 0, 0] ++ (List.replicate 65536 0 ++ [1])

/-! Helper lemmas (shared across several claims). -/

theorem tdiv_two_pos_facts (w : ℤ) (h : 0 < Int.tdiv w 2) :
    0 < w ∧ 2 * Int.tdiv w 2 ≤ w := by
  rcases le_or_lt 0 w with hw | hw
  · rw [Int.tdiv_eq_ediv hw (by norm_num)] at h ⊢
    omega
  · exfalso
    have h1 : 0 ≤ Int.tdiv (-w) 2 := Int.tdiv_nonneg (by omega) (by norm_num)
    have h2 : Int.tdiv (-w) 2 = -Int.tdiv w 2 := Int.neg_tdiv w 2
    omega

theorem calc_iou_eq_formula (a b : BBox) : calc_iou a b = spec_iou a b := by
  simp only [calc_iou, spec_iou, intersection_area, union_area, inter_w, inter_h,
    box_x1, box_x2, box_y1, box_y2, max_comm]

theorem intersection_area_nonneg (a b : BBox) : 0 ≤ intersection_area a b :=
  mul_nonneg (le_max_left 0 _) (le_max_left 0 _)

theorem intersection_area_pos_facts (a b : BBox)
    (h : 0 < intersection_area a b) :
    0 < a.w ∧ 0 < a.h ∧ 0 < b.w ∧ 0 < b.h ∧
    intersection_area a b ≤ a.w * a.h ∧ intersection_area a b ≤ b.w * b.h := by
  have hwnn : 0 ≤ inter_w a b := le_max_left 0 _
  have hhnn : 0 ≤ inter_h a b := le_max_left 0 _
  have hw : 0 < inter_w a b := by
    rcases hwnn.lt_or_eq with h1 | h1
    · exact h1
    · exfalso
      have : intersection_area a b = 0 := by
        unfold intersection_area
        rw [← h1, zero_mul]
      omega
  have hh : 0 < inter_h a b := by
    rcases hhnn.lt_or_eq with h1 | h1
    · exact h1
    · exfalso
      have : intersection_area a b = 0 := by
        unfold intersection_area
        rw [← h1, mul_zero]
      omega
  have hwv : inter_w a b ≤ min (box_x2 a) (box_x2 b) - max (box_x1 a) (box_x1 b) := by
    unfold inter_w at hw ⊢
    rcases max_cases 0 (min (box_x2 a) (box_x2 b) - max (box_x1 a) (box_x1 b)) with
      ⟨he, hle⟩ | ⟨he, hle⟩ <;> omega
  have hhv : inter_h a b ≤ min (box_y2 a) (box_y2 b) - max (box_y1 a) (box_y1 b) := by
    unfold inter_h at hh ⊢
    rcases max_cases 0 (min (box_y2 a) (box_y2 b) - max (box_y1 a) (box_y1 b)) with
      ⟨he, hle⟩ | ⟨he, hle⟩ <;> omega
  have hwa : inter_w a b ≤ 2 * Int.tdiv a.w 2 := by
    have h1 : min (box_x2 a) (box_x2 b) ≤ box_x2 a := min_le_left _ _
    have h2 : box_x1 a ≤ max (box_x1 a) (box_x1 b) := le_max_left _ _
    have h3 : box_x2 a - box_x1 a = 2 * Int.tdiv a.w 2 := by
      unfold box_x1 box_x2; ring
    omega
  have hwb : inter_w a b ≤ 2 * Int.tdiv b.w 2 := by
    have h1 : min (box_x2 a) (box_x2 b) ≤ box_x2 b := min_le_right _ _
    have h2 : box_x1 b ≤ max (box_x1 a) (box_x1 b) := le_max_right _ _
    have h3 : box_x2 b - box_x1 b = 2 * Int.tdiv b.w 2 := by
      unfold box_x1 box_x2; ring
    omega
  have hha : inter_h a b ≤ 2 * Int.tdiv a.h 2 := by
    have h1 : min (box_y2 a) (box_y2 b) ≤ box_y2 a := min_le_left _ _
    have h2 : box_y1 a ≤ max (box_y1 a) (box_y1 b) := le_max_left _ _
    have h3 : box_y2 a - box_y1 a = 2 * Int.tdiv a.h 2 := by
      unfold box_y1 box_y2; ring
    omega
  have hhb : inter_h a b ≤ 2 * Int.tdiv b.h 2 := by
    have h1 : min (box_y2 a) (box_y2 b) ≤ box_y2 b := min_le_right _ _
    have h2 : box_y1 b ≤ max (box_y1 a) (box_y1 b) := le_max_right _ _
    have h3 : box_y2 b - box_y1 b = 2 * Int.tdiv b.h 2 := by
      unfold box_y1 box_y2; ring
    omega
  have hfa : 0 < a.w ∧ 2 * Int.tdiv a.w 2 ≤ a.w :=
    tdiv_two_pos_facts a.w (by omega)
  have hfb : 0 < b.w ∧ 2 * Int.tdiv b.w 2 ≤ b.w :=
    tdiv_two_pos_facts b.w (by omega)
  have hga : 0 < a.h ∧ 2 * Int.tdiv a.h 2 ≤ a.h :=
    tdiv_two_pos_facts a.h (by omega)
  have hgb : 0 < b.h ∧ 2 * Int.tdiv b.h 2 ≤ b.h :=
    tdiv_two_pos_facts b.h (by omega)
  refine ⟨hfa.1, hga.1, hfb.1, hgb.1, ?_, ?_⟩
  · calc intersection_area a b = inter_w a b * inter_h a b := rfl
      _ ≤ a.w * a.h := by
          apply mul_le_mul (by omega) (by omega) hhnn (by omega)
  · calc intersection_area a b = inter_w a b * inter_h a b := rfl
      _ ≤ b.w * b.h := by
          apply mul_le_mul (by omega) (by omega) hhnn (by omega)

theorem union_area_pos_of_inter_pos (a b : BBox) (h : 0 < intersection_area a b) :
    0 < union_area a b := by
  obtain ⟨hwa, hha, hwb, hhb, h1, h2⟩ := intersection_area_pos_facts a b h
  have : 0 < a.w * a.h := mul_pos hwa hha
  unfold union_area
  omega

theorem calc_iou_nonneg (a b : BBox) : 0 ≤ calc_iou a b := by
  rw [calc_iou_eq_formula]
  unfold spec_iou
  split_ifs with h
  · exact le_refl 0
  · have hI : 0 ≤ intersection_area a b := intersection_area_nonneg a b
    rcases hI.lt_or_eq with hIpos | hI0
    · have hU : 0 < union_area a b := union_area_pos_of_inter_pos a b hIpos
      apply div_nonneg
      · exact_mod_cast hI
      · exact_mod_cast hU.le
    · rw [← hI0]
      simp

theorem calc_iou_comm (a b : BBox) : calc_iou a b = calc_iou b a := by
  rw [calc_iou_eq_formula, calc_iou_eq_formula]
  have h1 : intersection_area a b = intersection_area b a := by
    unfold intersection_area inter_w inter_h
    rw [min_comm (box_x2 a) (box_x2 b), max_comm (box_x1 a) (box_x1 b),
      min_comm (box_y2 a) (box_y2 b), max_comm (box_y1 a) (box_y1 b)]
  have h2 : union_area a b = union_area b a := by
    unfold union_area
    rw [h1]
    ring
  unfold spec_iou
  rw [h1, h2]

/-- C4: for any two boxes the IoU calculator computes corners as cx ± w/2 and
cy ± h/2 with truncating integer division, the intersection area as the
product of the two 0-clamped overlap extents in integer arithmetic, the union
area as w_a*h_a + w_b*h_b - intersection_area, and returns
intersection_area / union_area (as an exact rational here, modelling the f32
quotient of the two integer operands), except that it returns exactly 0 when
the union area is exactly 0. -/
theorem calc_iou_follows_spec_formula (a b : BBox) : calc_iou a b = spec_iou a b :=
  calc_iou_eq_formula a b

/-! Lemmas about the max-IoU fold and the nms walk. -/

theorem iou_foldl_le_iff (b : BBox) (l : List BBox) (m c : ℚ) :
    l.foldl (fun acc kb => max (calc_iou b kb) acc) m ≤ c ↔
      m ≤ c ∧ ∀ kb ∈ l, calc_iou b kb ≤ c := by
  induction l generalizing m with
  | nil => simp
  | cons x xs ih =>
    simp only [List.foldl_cons, ih, max_le_iff, List.mem_cons]
    constructor
    · rintro ⟨⟨h1, h2⟩, h3⟩
      exact ⟨h2, fun kb hkb => by rcases hkb with rfl | hkb; exacts [h1, h3 kb hkb]⟩
    · rintro ⟨h1, h2⟩
      exact ⟨⟨h2 x (Or.inl rfl), h1⟩, fun kb hkb => h2 kb (Or.inr hkb)⟩

theorem max_iou_fold_le_iff (b : BBox) (kept : List BBox) (c : ℚ) :
    max_iou_fold b kept ≤ c ↔ 0 ≤ c ∧ ∀ kb ∈ kept, calc_iou b kb ≤ c :=
  iou_foldl_le_iff b kept 0 c

theorem q_foldl_max_le_iff (l : List ℚ) (m c : ℚ) :
    l.foldl max m ≤ c ↔ m ≤ c ∧ ∀ x ∈ l, x ≤ c := by
  induction l generalizing m with
  | nil => simp
  | cons x xs ih =>
    simp only [List.foldl_cons, ih, max_le_iff, List.mem_cons]
    constructor
    · rintro ⟨⟨h1, h2⟩, h3⟩
      exact ⟨h1, fun y hy => by rcases hy with rfl | hy; exacts [h2, h3 y hy]⟩
    · rintro ⟨h1, h2⟩
      exact ⟨⟨h1, h2 x (Or.inl rfl)⟩, fun y hy => h2 y (Or.inr hy)⟩

theorem spec_max_iou_le_iff (b : BBox) (kept : List BBox) (c : ℚ) :
    spec_max_iou b kept ≤ c ↔
      (kept = [] → 0 ≤ c) ∧ ∀ kb ∈ kept, calc_iou b kb ≤ c := by
  cases kept with
  | nil => simp [spec_max_iou]
  | cons k ks =>
    have hre : spec_max_iou b (k :: ks) =
        (List.map (calc_iou b) ks).foldl max (calc_iou b k) := rfl
    rw [hre, q_foldl_max_le_iff]
    constructor
    · rintro ⟨h1, h2⟩
      refine ⟨(fun h => nomatch h), fun kb hkb => ?_⟩
      rcases List.mem_cons.mp hkb with rfl | hkb
      · exact h1
      · exact h2 _ (List.mem_map_of_mem (calc_iou b) hkb)
    · rintro ⟨_, h2⟩
      refine ⟨h2 k (List.mem_cons_self k ks), fun x hx => ?_⟩
      obtain ⟨kb, hkb, rfl⟩ := List.mem_map.mp hx
      exact h2 kb (List.mem_cons_of_mem k hkb)

theorem spec_max_iou_eq_max_iou_fold (b : BBox) (kept : List BBox) :
    spec_max_iou b kept = max_iou_fold b kept := by
  cases kept with
  | nil => rfl
  | cons k ks =>
    apply le_antisymm
    · rw [spec_max_iou_le_iff]
      have h := (max_iou_fold_le_iff b (k :: ks) (max_iou_fold b (k :: ks))).mp le_rfl
      exact ⟨(fun hh => nomatch hh), h.2⟩
    · rw [max_iou_fold_le_iff]
      have h := (spec_max_iou_le_iff b (k :: ks) (spec_max_iou b (k :: ks))).mp le_rfl
      refine ⟨?_, h.2⟩
      exact le_trans (calc_iou_nonneg b k) (h.2 k (List.mem_cons_self k ks))

theorem nms_walk_decomp (t : ℚ) (l : List BBox) :
    ∀ kept : List BBox, ∃ s : List BBox,
      l.foldl (nms_step t) kept = kept ++ s ∧ s.Sublist l := by
  induction l with
  | nil => exact fun kept => ⟨[], by simp⟩
  | cons b rest ih =>
    intro kept
    simp only [List.foldl_cons]
    unfold nms_step
    split_ifs with hif
    · obtain ⟨s, hs, hsub⟩ := ih (kept ++ [b])
      exact ⟨b :: s, by simpa using hs, List.Sublist.cons₂ b hsub⟩
    · obtain ⟨s, hs, hsub⟩ := ih kept
      exact ⟨s, hs, List.Sublist.cons b hsub⟩

theorem nms_class_sublist (bboxes : List BBox) (t : ℚ) (c : ℕ) :
    ∃ s : List BBox, nms_class bboxes t c = s ∧
      s.Sublist (sorted_boxes_filtered_by_class bboxes c) := by
  obtain ⟨s, hs, hsub⟩ := nms_walk_decomp t (sorted_boxes_filtered_by_class bboxes c) []
  exact ⟨s, by simpa [nms_class] using hs, hsub⟩

theorem mem_sorted_boxes_iff (bboxes : List BBox) (c : ℕ) (x : BBox) :
    x ∈ sorted_boxes_filtered_by_class bboxes c ↔ x ∈ bboxes ∧ x.cls = c := by
  unfold sorted_boxes_filtered_by_class
  rw [List.mem_insertionSort, List.mem_filter]
  simp

theorem mem_nms_class (bboxes : List BBox) (t : ℚ) (c : ℕ) (x : BBox)
    (hx : x ∈ nms_class bboxes t c) : x ∈ bboxes ∧ x.cls = c := by
  obtain ⟨s, hs, hsub⟩ := nms_class_sublist bboxes t c
  rw [hs] at hx
  exact (mem_sorted_boxes_iff bboxes c x).mp (hsub.mem hx)

theorem get_classes_nodup (boxes : List BBox) : (get_classes boxes).Nodup := by
  unfold get_classes
  exact (List.perm_insertionSort _ _).nodup_iff.mpr (List.nodup_dedup _)

theorem mem_get_classes (boxes : List BBox) (c : ℕ) :
    c ∈ get_classes boxes ↔ c ∈ boxes.map BBox.cls := by
  unfold get_classes
  rw [List.mem_insertionSort, List.mem_dedup]

/-! Evaluation helpers for concrete IoU values and two-box nms runs. -/

theorem calc_iou_eval (a b : BBox) (I U : ℤ) (hI : intersection_area a b = I)
    (hU : union_area a b = U) (hUne : U ≠ 0) :
    calc_iou a b = (I : ℚ) / (U : ℚ) := by
  rw [calc_iou_eq_formula]
  unfold spec_iou
  rw [hI, hU, if_neg hUne]

theorem get_classes_pair_same (a b : BBox) (h : b.cls = a.cls) :
    get_classes [a, b] = [a.cls] := by
  unfold get_classes
  have h1 : List.map BBox.cls [a, b] = [a.cls, a.cls] := by simp [h]
  rw [h1, List.dedup_cons_of_mem (by simp), List.dedup_cons_of_not_mem (by simp),
    List.dedup_nil]
  rfl

theorem get_classes_pair_ne (a b : BBox) (h : a.cls ≠ b.cls) :
    get_classes [a, b] = if a.cls ≤ b.cls then [a.cls, b.cls] else [b.cls, a.cls] := by
  unfold get_classes
  have h1 : List.map BBox.cls [a, b] = [a.cls, b.cls] := by simp
  rw [h1, List.dedup_cons_of_not_mem (by simp [h]), List.dedup_cons_of_not_mem (by simp),
    List.dedup_nil]
  simp only [List.insertionSort, List.orderedInsert]

theorem sorted_pair_same (a b : BBox) (hcls : b.cls = a.cls) (hp : b.prob ≤ a.prob) :
    sorted_boxes_filtered_by_class [a, b] a.cls = [a, b] := by
  unfold sorted_boxes_filtered_by_class
  have h1 : List.filter (fun x => x.cls == a.cls) [a, b] = [a, b] := by
    simp [List.filter, hcls]
  rw [h1]
  simp only [List.insertionSort, List.orderedInsert]
  split_ifs with hgood
  · rfl
  · exact absurd hp hgood

theorem sorted_pair_ne_left (a b : BBox) (h : b.cls ≠ a.cls) :
    sorted_boxes_filtered_by_class [a, b] a.cls = [a] := by
  unfold sorted_boxes_filtered_by_class
  have hbf : (b.cls == a.cls) = false := beq_eq_false_iff_ne.mpr h
  have h1 : List.filter (fun x => x.cls == a.cls) [a, b] = [a] := by
    simp [List.filter, hbf]
  rw [h1]
  rfl

theorem sorted_pair_ne_right (a b : BBox) (h : a.cls ≠ b.cls) :
    sorted_boxes_filtered_by_class [a, b] b.cls = [b] := by
  unfold sorted_boxes_filtered_by_class
  have haf : (a.cls == b.cls) = false := beq_eq_false_iff_ne.mpr h
  have h1 : List.filter (fun x => x.cls == b.cls) [a, b] = [b] := by
    simp [List.filter, haf]
  rw [h1]
  rfl

theorem walk_singleton (t : ℚ) (x : BBox) :
    List.foldl (nms_step t) [] [x] = if 0 ≤ t then [x] else [] := by
  have h0 : List.foldl (nms_step t) [] [x] = nms_step t [] x := rfl
  rw [h0]
  unfold nms_step
  have h1 : max_iou_fold x [] = 0 := rfl
  rw [h1]
  split_ifs <;> rfl

theorem walk_pair (t : ℚ) (a b : BBox) :
    List.foldl (nms_step t) [] [a, b] =
      if 0 ≤ t then (if calc_iou b a ≤ t then [a, b] else [a]) else [] := by
  have h0 : List.foldl (nms_step t) [] [a, b] = nms_step t (nms_step t [] a) b := rfl
  rw [h0]
  by_cases ht : (0 : ℚ) ≤ t
  · have h1 : nms_step t [] a = [a] := by
      unfold nms_step
      have h2 : max_iou_fold a [] = 0 := rfl
      rw [h2, if_pos ht]
      rfl
    rw [h1, if_pos ht]
    unfold nms_step
    have h2 : max_iou_fold b [a] = calc_iou b a := by
      unfold max_iou_fold
      simp only [List.foldl_cons, List.foldl_nil]
      exact max_eq_left (calc_iou_nonneg b a)
    rw [h2]
    split_ifs <;> rfl
  · have h1 : nms_step t [] a = [] := by
      unfold nms_step
      have h2 : max_iou_fold a [] = 0 := rfl
      rw [h2, if_neg ht]
    rw [h1, if_neg ht]
    unfold nms_step
    have h2 : max_iou_fold b [] = 0 := rfl
    rw [h2, if_neg ht]

theorem two_box_nms_same (a b : BBox) (t : ℚ) (hcls : b.cls = a.cls)
    (hp : b.prob ≤ a.prob) :
    nms [a, b] t = if 0 ≤ t then (if calc_iou b a ≤ t then [a, b] else [a]) else [] := by
  unfold nms
  rw [get_classes_pair_same a b hcls]
  simp only [List.map_cons, List.map_nil, List.flatten_cons, List.flatten_nil,
    List.append_nil]
  unfold nms_class
  rw [sorted_pair_same a b hcls hp, walk_pair]

theorem two_box_nms_ne (a b : BBox) (t : ℚ) (hcls : a.cls ≠ b.cls) :
    nms [a, b] t = if 0 ≤ t then (if a.cls ≤ b.cls then [a, b] else [b, a]) else [] := by
  unfold nms
  rw [get_classes_pair_ne a b hcls]
  by_cases hle : a.cls ≤ b.cls
  · rw [if_pos hle]
    simp only [List.map_cons, List.map_nil, List.flatten_cons, List.flatten_nil,
      List.append_nil]
    unfold nms_class
    rw [sorted_pair_ne_left a b (Ne.symm hcls), sorted_pair_ne_right a b hcls,
      walk_singleton, walk_singleton]
    split_ifs <;> rfl
  · rw [if_neg hle]
    simp only [List.map_cons, List.map_nil, List.flatten_cons, List.flatten_nil,
      List.append_nil]
    unfold nms_class
    rw [sorted_pair_ne_left a b (Ne.symm hcls), sorted_pair_ne_right a b hcls,
      walk_singleton, walk_singleton]
    split_ifs <;> rfl

/-- C1 (amended): in the class-wise walk a candidate is appended to the kept
list if and only if the maximum IoU against the already-kept boxes (0.0 when
the kept list is empty, the spec-side spec_max_iou) is at most iou_threshold,
and otherwise the kept list is unchanged; for two same-class boxes with the
lower-probability box second, IoU exactly equal to the threshold keeps both,
and IoU strictly above the threshold keeps only the higher-probability box
provided the threshold is nonnegative (for a negative threshold the walk
keeps nothing, because the empty-kept maximum 0.0 already exceeds it). -/
theorem nms_walk_keep_iff (t : ℚ) (kept : List BBox) (b a c : BBox)
    (hcls : c.cls = a.cls) (hp : c.prob < a.prob) :
    (nms_step t kept b = kept ++ [b] ↔ spec_max_iou b kept ≤ t) ∧
    (¬ spec_max_iou b kept ≤ t → nms_step t kept b = kept) ∧
    (calc_iou a c = t → nms [a, c] t = [a, c]) ∧
    (0 ≤ t → t < calc_iou a c → nms [a, c] t = [a]) := by
  refine ⟨?_, ?_, ?_, ?_⟩
  · rw [spec_max_iou_eq_max_iou_fold]
    unfold nms_step
    split_ifs with h
    · exact iff_of_true rfl h
    · apply iff_of_false _ h
      intro he
      have hlen := congrArg List.length he
      simp at hlen
  · intro h
    rw [spec_max_iou_eq_max_iou_fold] at h
    unfold nms_step
    rw [if_neg h]
  · intro hiou
    have ht0 : 0 ≤ t := hiou ▸ calc_iou_nonneg a c
    rw [two_box_nms_same a c t hcls hp.le, if_pos ht0, if_pos]
    rw [calc_iou_comm c a, hiou]
  · intro ht0 hlt
    rw [two_box_nms_same a c t hcls hp.le, if_pos ht0, if_neg]
    rw [calc_iou_comm c a]
    exact not_le.mpr hlt

/-- C1 counterexample: W1 and W2 share class 5, W2 has the lower probability,
their IoU is 0, which strictly exceeds the threshold -1, yet nms keeps
neither box — not only the higher-probability one, as the claim states for
every threshold. -/
theorem nms_walk_keep_iff_cex :
    W1.cls = W2.cls ∧ W2.prob < W1.prob ∧ calc_iou W1 W2 = 0 ∧
    (-1 : ℚ) < calc_iou W1 W2 ∧ nms [W1, W2] (-1) = [] := by
  have hiou : calc_iou W1 W2 = 0 := by
    have hI : intersection_area W1 W2 = 0 := by decide
    have hU : union_area W1 W2 = 8 := by decide
    rw [calc_iou_eval W1 W2 0 8 hI hU (by norm_num)]
    norm_num
  refine ⟨rfl, by norm_num [W1, W2], hiou, by rw [hiou]; norm_num, ?_⟩
  rw [two_box_nms_same W1 W2 (-1) rfl (by norm_num [W1, W2]),
    if_neg (by norm_num : ¬ (0 : ℚ) ≤ -1)]

/-- Witness for nms_walk_keep_iff at concrete inputs: both boxes of the
IoU-0 pair survive at threshold 0, only the higher box of the IoU-1 pair
survives at threshold 0, and a candidate is appended to an empty kept list
at threshold 0. -/
theorem nms_walk_keep_iff_witness :
    nms [W1, W2] 0 = [W1, W2] ∧ nms [W1, W3] 0 = [W1] ∧
    nms_step 0 [] defaultBBox = [defaultBBox] := by
  have h2 := nms_walk_keep_iff 0 [] defaultBBox W1 W2 rfl (by norm_num [W1, W2])
  have h3 := nms_walk_keep_iff 0 [] defaultBBox W1 W3 rfl (by norm_num [W1, W3])
  refine ⟨?_, ?_, ?_⟩
  · apply h2.2.2.1
    have hI : intersection_area W1 W2 = 0 := by decide
    have hU : union_area W1 W2 = 8 := by decide
    rw [calc_iou_eval W1 W2 0 8 hI hU (by norm_num)]
    norm_num
  · apply h3.2.2.2 le_rfl
    have hI : intersection_area W1 W3 = 4 := by decide
    have hU : union_area W1 W3 = 4 := by decide
    rw [calc_iou_eval W1 W3 4 4 hI hU (by norm_num)]
    norm_num
  · simpa using h2.1.mpr (le_of_eq rfl)

/-- C2 (amended): two boxes of distinct classes never suppress each other:
whatever their mutual overlap (including identical geometry), both appear in
the nms output, provided the iou_threshold is nonnegative (for a negative
threshold the walk drops every box, since even the empty-kept maximum IoU of
0.0 exceeds the threshold). -/
theorem nms_no_cross_class_suppression (a b : BBox) (t : ℚ)
    (hcls : a.cls ≠ b.cls) (ht : 0 ≤ t) :
    a ∈ nms [a, b] t ∧ b ∈ nms [a, b] t := by
  rw [two_box_nms_ne a b t hcls, if_pos ht]
  split_ifs <;> simp

/-- C2 counterexample: A2 and B2 have distinct classes and identical geometry
(IoU exactly 1), yet with iou_threshold -1 the nms output is empty, so the
boxes do not both appear in it. -/
theorem nms_no_cross_class_suppression_cex :
    A2.cls ≠ B2.cls ∧ calc_iou A2 B2 = 1 ∧ nms [A2, B2] (-1) = [] := by
  refine ⟨by decide, ?_, ?_⟩
  · have hI : intersection_area A2 B2 = 4 := by decide
    have hU : union_area A2 B2 = 4 := by decide
    rw [calc_iou_eval A2 B2 4 4 hI hU (by norm_num)]
    norm_num
  · rw [two_box_nms_ne A2 B2 (-1) (by decide), if_neg (by norm_num : ¬ (0 : ℚ) ≤ -1)]

/-- Witness for nms_no_cross_class_suppression: the two identical-geometry
boxes of distinct classes both survive at threshold 0. -/
theorem nms_no_cross_class_suppression_witness :
    A2 ∈ nms [A2, B2] 0 ∧ B2 ∈ nms [A2, B2] 0 :=
  nms_no_cross_class_suppression A2 B2 0 (by decide) le_rfl

/-! Counting and pairwise infrastructure for the global nms invariants. -/

theorem count_nms_class_le (bboxes : List BBox) (t : ℚ) (c : ℕ) (v : BBox) :
    (nms_class bboxes t c).count v ≤ (bboxes.filter (fun b => b.cls == c)).count v := by
  obtain ⟨s, hs, hsub⟩ := nms_class_sublist bboxes t c
  rw [hs]
  calc s.count v ≤ (sorted_boxes_filtered_by_class bboxes c).count v := hsub.count_le v
    _ = (bboxes.filter (fun b => b.cls == c)).count v :=
        (List.perm_insertionSort probGE _).count_eq v

theorem count_nms_class_eq_zero (bboxes : List BBox) (t : ℚ) (c : ℕ) (v : BBox)
    (h : v.cls ≠ c) : (nms_class bboxes t c).count v = 0 := by
  rw [List.count_eq_zero]
  intro hv
  exact h (mem_nms_class bboxes t c v hv).2

theorem count_flatten_classes_zero (bboxes : List BBox) (t : ℚ) (v : BBox) :
    ∀ cs : List ℕ, v.cls ∉ cs →
      ((cs.map (nms_class bboxes t)).flatten).count v = 0 := by
  intro cs
  induction cs with
  | nil => simp
  | cons c cs ih =>
    intro h
    have h1 : v.cls ≠ c := fun he => h (he ▸ List.mem_cons_self c cs)
    have h2 : v.cls ∉ cs := fun he => h (List.mem_cons_of_mem c he)
    simp only [List.map_cons, List.flatten_cons, List.count_append]
    rw [count_nms_class_eq_zero bboxes t c v h1, ih h2]

theorem count_flatten_classes_le (bboxes : List BBox) (t : ℚ) (v : BBox) :
    ∀ cs : List ℕ, cs.Nodup →
      ((cs.map (nms_class bboxes t)).flatten).count v ≤ bboxes.count v := by
  intro cs
  induction cs with
  | nil => simp
  | cons c cs ih =>
    intro hnd
    simp only [List.map_cons, List.flatten_cons, List.count_append]
    by_cases hc : v.cls = c
    · have h2 : v.cls ∉ cs := by
        rw [hc]
        exact (List.nodup_cons.mp hnd).1
      rw [count_flatten_classes_zero bboxes t v cs h2]
      have h3 := count_nms_class_le bboxes t c v
      have h4 : (bboxes.filter (fun b => b.cls == c)).count v ≤ bboxes.count v :=
        (List.filter_sublist bboxes).count_le v
      omega
    · rw [count_nms_class_eq_zero bboxes t c v hc]
      simpa using ih (List.nodup_cons.mp hnd).2

/-- C9: nms only selects, never fabricates, duplicates or mutates boxes: every
box of the output is field-for-field (as a BBox value) one of the input boxes,
and no box value occurs more often in the output than in the input. -/
theorem nms_only_selects (bboxes : List BBox) (t : ℚ) :
    (∀ b : BBox, b ∈ nms bboxes t → b ∈ bboxes) ∧
    (∀ v : BBox, (nms bboxes t).count v ≤ bboxes.count v) := by
  have hcount : ∀ v : BBox, (nms bboxes t).count v ≤ bboxes.count v := by
    intro v
    unfold nms
    exact count_flatten_classes_le bboxes t v (get_classes bboxes) (get_classes_nodup bboxes)
  refine ⟨fun b hb => ?_, hcount⟩
  have h1 : 0 < (nms bboxes t).count b := List.count_pos_iff.mpr hb
  have h2 := hcount b
  exact List.count_pos_iff.mp (by omega)

theorem nms_walk_pairwise (t : ℚ) (l : List BBox) :
    ∀ kept : List BBox,
      List.Pairwise (fun x y => calc_iou x y ≤ t ∧ calc_iou y x ≤ t) kept →
      List.Pairwise (fun x y => calc_iou x y ≤ t ∧ calc_iou y x ≤ t)
        (l.foldl (nms_step t) kept) := by
  induction l with
  | nil => exact fun kept h => h
  | cons b rest ih =>
    intro kept hk
    simp only [List.foldl_cons]
    apply ih
    unfold nms_step
    split_ifs with hif
    · rw [List.pairwise_append]
      refine ⟨hk, List.pairwise_singleton _ _, ?_⟩
      intro x hx y hy
      rw [List.mem_singleton] at hy
      have hall := (max_iou_fold_le_iff b kept t).mp hif
      have h1 : calc_iou b x ≤ t := hall.2 x hx
      rw [hy]
      refine ⟨?_, h1⟩
      rw [calc_iou_comm x b]
      exact h1
    · exact hk

theorem nms_class_pairwise (bboxes : List BBox) (t : ℚ) (c : ℕ) :
    List.Pairwise (fun x y => calc_iou x y ≤ t ∧ calc_iou y x ≤ t)
      (nms_class bboxes t c) := by
  unfold nms_class
  exact nms_walk_pairwise t _ [] List.Pairwise.nil

theorem nms_pairwise (bboxes : List BBox) (t : ℚ) :
    List.Pairwise (fun x y => x.cls = y.cls → calc_iou x y ≤ t ∧ calc_iou y x ≤ t)
      (nms bboxes t) := by
  unfold nms
  rw [List.pairwise_flatten]
  constructor
  · intro l hl
    obtain ⟨c, hc, rfl⟩ := List.mem_map.mp hl
    refine List.Pairwise.imp ?_ (nms_class_pairwise bboxes t c)
    intro x y hxy
    exact fun _ => hxy
  · rw [List.pairwise_map]
    have hne : List.Pairwise (fun c cp : ℕ => c ≠ cp) (get_classes bboxes) :=
      get_classes_nodup bboxes
    apply List.Pairwise.imp ?_ hne
    intro c cp hcc x hx y hy hcls
    have h1 := (mem_nms_class bboxes t c x hx).2
    have h2 := (mem_nms_class bboxes t cp y hy).2
    exact absurd (by rw [← h1, ← h2]; exact hcls) hcc

/-- C10: any two distinct positions of the nms output holding boxes of the
same class have pairwise IoU at most iou_threshold, where the IoU calculator
is symmetric in its two arguments. -/
theorem nms_output_pairwise_iou (bboxes : List BBox) (t : ℚ) :
    (∀ a b : BBox, calc_iou a b = calc_iou b a) ∧
    (∀ i j : ℕ, i < (nms bboxes t).length → j < (nms bboxes t).length → i ≠ j →
      ((nms bboxes t).getD i defaultBBox).cls = ((nms bboxes t).getD j defaultBBox).cls →
      calc_iou ((nms bboxes t).getD i defaultBBox)
        ((nms bboxes t).getD j defaultBBox) ≤ t) := by
  refine ⟨calc_iou_comm, ?_⟩
  intro i j hi hj hne hcls
  have hp := nms_pairwise bboxes t
  rw [List.pairwise_iff_get] at hp
  rw [List.getD_eq_get _ _ hi, List.getD_eq_get _ _ hj] at hcls ⊢
  rcases lt_or_gt_of_ne hne with hij | hij
  · exact (hp ⟨i, hi⟩ ⟨j, hj⟩ (Fin.mk_lt_mk.mpr hij) hcls).1
  · exact (hp ⟨j, hj⟩ ⟨i, hi⟩ (Fin.mk_lt_mk.mpr hij) hcls.symm).2

/-- Witness for nms_only_selects: with the overlapping same-class pair
[W1, W3] at threshold 0, the surviving box W1 is one of the inputs and no
box value is duplicated. -/
theorem nms_only_selects_witness :
    W1 ∈ [W1, W3] ∧ (nms [W1, W3] 0).count W1 ≤ [W1, W3].count W1 := by
  have hiou : calc_iou W3 W1 = 1 := by
    have hI : intersection_area W3 W1 = 4 := by decide
    have hU : union_area W3 W1 = 4 := by decide
    rw [calc_iou_eval W3 W1 4 4 hI hU (by norm_num)]
    norm_num
  have hval : nms [W1, W3] 0 = [W1] := by
    rw [two_box_nms_same W1 W3 0 rfl (by norm_num [W1, W3]), if_pos le_rfl, if_neg]
    rw [hiou]
    norm_num
  have h := nms_only_selects [W1, W3] 0
  have hmem : W1 ∈ nms [W1, W3] 0 := by
    rw [hval]
    exact List.mem_cons_self W1 []
  exact ⟨h.1 W1 hmem, h.2 W1⟩

/-- Witness for nms_output_pairwise_iou: with the same-class pair [W1, W3]
and threshold 1 both boxes survive and their pairwise IoU is at most 1. -/
theorem nms_output_pairwise_iou_witness :
    calc_iou W1 W3 = calc_iou W3 W1 ∧
    calc_iou ((nms [W1, W3] 1).getD 0 defaultBBox)
      ((nms [W1, W3] 1).getD 1 defaultBBox) ≤ 1 := by
  have hiou : calc_iou W3 W1 = 1 := by
    have hI : intersection_area W3 W1 = 4 := by decide
    have hU : union_area W3 W1 = 4 := by decide
    rw [calc_iou_eval W3 W1 4 4 hI hU (by norm_num)]
    norm_num
  have hval : nms [W1, W3] 1 = [W1, W3] := by
    rw [two_box_nms_same W1 W3 1 rfl (by norm_num [W1, W3]),
      if_pos (by norm_num : (0 : ℚ) ≤ 1), if_pos]
    rw [hiou]
  have h := nms_output_pairwise_iou [W1, W3] 1
  refine ⟨h.1 W1 W3, ?_⟩
  apply h.2 0 1 (by rw [hval]; norm_num) (by rw [hval]; norm_num) (by norm_num)
  rw [hval]
  rfl

/-! Lemmas about the best-class fold of the extractor. -/

theorem best_class_nil (mp : ℚ) (mc i : ℕ) : best_class [] mp mc i = (mp, mc) := rfl

theorem best_class_cons (p : ℚ) (rest : List ℚ) (mp : ℚ) (mc i : ℕ) :
    best_class (p :: rest) mp mc i =
      if p > mp then best_class rest p (i % 65536) (i + 1)
      else best_class rest mp mc (i + 1) := rfl

theorem best_class_stay (scores : List ℚ) :
    ∀ (mp : ℚ) (mc i : ℕ), (∀ s ∈ scores, s ≤ mp) →
      best_class scores mp mc i = (mp, mc) := by
  induction scores with
  | nil => intro mp mc i _; rfl
  | cons p rest ih =>
    intro mp mc i h
    have hp : p ≤ mp := h p (List.mem_cons_self p rest)
    simp only [best_class, if_neg (not_lt.mpr hp)]
    exact ih mp mc (i + 1) (fun s hs => h s (List.mem_cons_of_mem p hs))

theorem exists_index_of_mem (l : List ℚ) (s : ℚ) (hs : s ∈ l) :
    ∃ k, k < l.length ∧ l.getD k 0 = s := by
  obtain ⟨⟨k, hk⟩, rfl⟩ := List.mem_iff_get.mp hs
  exact ⟨k, hk, List.getD_eq_get l 0 hk⟩

theorem best_class_first_argmax (scores : List ℚ) :
    ∀ (mp : ℚ) (mc i j : ℕ),
      i + scores.length ≤ 65536 →
      j < scores.length →
      (∀ k, k < j → scores.getD k 0 < scores.getD j 0) →
      (∀ k, k < scores.length → scores.getD k 0 ≤ scores.getD j 0) →
      mp < scores.getD j 0 →
      best_class scores mp mc i = (scores.getD j 0, i + j) := by
  induction scores with
  | nil => intro mp mc i j _ hj; exact absurd hj (by simp)
  | cons p rest ih =>
    intro mp mc i j hle hj hfirst hmax hmp
    cases j with
    | zero =>
      rw [List.getD_cons_zero] at hmp hmax ⊢
      simp only [best_class, if_pos hmp]
      have hi : i % 65536 = i := Nat.mod_eq_of_lt (by simp at hle; omega)
      rw [hi]
      have hstay : ∀ s ∈ rest, s ≤ p := by
        intro s hs
        obtain ⟨k, hk, rfl⟩ := exists_index_of_mem rest s hs
        have := hmax (k + 1) (by simp; omega)
        rwa [List.getD_cons_succ] at this
      rw [best_class_stay rest p i (i + 1) hstay, Nat.add_zero]
    | succ k =>
      have hpj : p < (p :: rest).getD (k + 1) 0 := hfirst 0 (Nat.succ_pos k)
      rw [List.getD_cons_succ] at hpj
      have hj2 : k < rest.length := by simp at hj; omega
      have hle2 : (i + 1) + rest.length ≤ 65536 := by simp at hle; omega
      have hfirst2 : ∀ kp, kp < k → rest.getD kp 0 < rest.getD k 0 := by
        intro kp hkp
        have := hfirst (kp + 1) (by omega)
        rwa [List.getD_cons_succ, List.getD_cons_succ] at this
      have hmax2 : ∀ kp, kp < rest.length → rest.getD kp 0 ≤ rest.getD k 0 := by
        intro kp hkp
        have := hmax (kp + 1) (by simp; omega)
        rwa [List.getD_cons_succ, List.getD_cons_succ] at this
      rw [List.getD_cons_succ]
      by_cases hpm : p > mp
      · simp only [best_class, if_pos hpm]
        have := ih p (i % 65536) (i + 1) k hle2 hj2 hfirst2 hmax2 hpj
        rw [this]
        have : i + 1 + k = i + (k + 1) := by omega
        rw [this]
      · simp only [best_class, if_neg hpm]
        have := ih mp mc (i + 1) k hle2 hj2 hfirst2 hmax2 (by rwa [List.getD_cons_succ] at hmp)
        rw [this]
        have : i + 1 + k = i + (k + 1) := by omega
        rw [this]

theorem exists_first_argmax (l : List ℚ) (hne : l ≠ []) :
    ∃ j, j < l.length ∧ (∀ k, k < j → l.getD k 0 < l.getD j 0) ∧
      (∀ k, k < l.length → l.getD k 0 ≤ l.getD j 0) := by
  induction l with
  | nil => exact absurd rfl hne
  | cons p rest ih =>
    rcases List.eq_nil_or_concat rest with hr | _
    · subst hr
      refine ⟨0, by simp, fun k hk => absurd hk (by omega), fun k hk => ?_⟩
      have : k = 0 := by simpa using hk
      subst this
      exact le_refl _
    · have hrne : rest ≠ [] := by
        rcases rest with _ | _
        · rename_i hcat
          obtain ⟨l2, a, hla⟩ := hcat
          exact absurd hla.symm (by simp)
        · simp
      obtain ⟨j, hj, hfirst, hmax⟩ := ih hrne
      by_cases hc : rest.getD j 0 ≤ p
      · refine ⟨0, by simp, fun k hk => absurd hk (by omega), fun k hk => ?_⟩
        cases k with
        | zero => simp
        | succ kp =>
          rw [List.getD_cons_succ, List.getD_cons_zero]
          exact le_trans (hmax kp (by simp at hk; omega)) hc
      · refine ⟨j + 1, by simp; omega, fun k hk => ?_, fun k hk => ?_⟩
        · cases k with
          | zero =>
            rw [List.getD_cons_zero, List.getD_cons_succ]
            exact not_le.mp hc
          | succ kp =>
            rw [List.getD_cons_succ, List.getD_cons_succ]
            exact hfirst kp (by omega)
        · cases k with
          | zero =>
            rw [List.getD_cons_zero, List.getD_cons_succ]
            exact le_of_lt (not_le.mp hc)
          | succ kp =>
            rw [List.getD_cons_succ, List.getD_cons_succ]
            exact hmax kp (by simp at hk; omega)

/-- C5 (amended): for a row with a non-empty score sub-vector of at most
65536 scores, each at least f32::MIN (every finite f32 satisfies this; a
smaller f32 value can only be -inf), the extractor selects the maximum score
value as prob together with the first (lowest) index attaining it as class:
a later score equal to the running maximum does not replace it, because the
comparison is strict.  For longer score vectors the `as u16` cast wraps the
stored class index, see the counterexample. -/
theorem bbox_from_row_first_argmax (row : List ℚ) (b : BBox)
    (hb : bbox_from_row row = some b)
    (hlen : 4 < row.length) (hbound : row.length ≤ 4 + 65536)
    (hfin : ∀ s ∈ row.drop 4, f32MIN ≤ s) :
    b.cls < (row.drop 4).length ∧
    (row.drop 4).getD b.cls 0 = b.prob ∧
    (∀ s ∈ row.drop 4, s ≤ b.prob) ∧
    (∀ j, j < b.cls → (row.drop 4).getD j 0 < b.prob) := by
  rcases row with _ | ⟨x0, row⟩
  · simp at hlen
  rcases row with _ | ⟨x1, row⟩
  · simp at hlen
  rcases row with _ | ⟨x2, row⟩
  · simp at hlen
  rcases row with _ | ⟨x3, scores⟩
  · simp at hlen
  have hdrop : (x0 :: x1 :: x2 :: x3 :: scores).drop 4 = scores := rfl
  rw [hdrop] at hfin ⊢
  have hslen : 0 < scores.length := by simp at hlen; omega
  have hsbound : scores.length ≤ 65536 := by simp at hbound; omega
  have hform : bbox_from_row (x0 :: x1 :: x2 :: x3 :: scores) =
      some { prob := (best_class scores f32MIN 0 0).1
             cls := (best_class scores f32MIN 0 0).2
             cx := rustRound x0, cy := rustRound x1
             w := rustRound x2, h := rustRound x3 } := rfl
  rw [hform] at hb
  have hbeq := (Option.some.inj hb).symm
  by_cases hall : ∀ s ∈ scores, s ≤ f32MIN
  · have hbc : best_class scores f32MIN 0 0 = (f32MIN, 0) :=
      best_class_stay scores f32MIN 0 0 hall
    have hprob : b.prob = f32MIN := by rw [hbeq]; simp [hbc]
    have hcls : b.cls = 0 := by rw [hbeq]; simp [hbc]
    rcases scores with _ | ⟨s0, srest⟩
    · simp at hslen
    have hs0 : s0 = f32MIN :=
      le_antisymm (hall s0 (List.mem_cons_self s0 srest))
        (hfin s0 (List.mem_cons_self s0 srest))
    refine ⟨by rw [hcls]; simp, ?_, ?_, ?_⟩
    · rw [hcls, hprob, List.getD_cons_zero, hs0]
    · intro s hs
      rw [hprob]
      exact hall s hs
    · intro j hj
      rw [hcls] at hj
      exact absurd hj (by omega)
  · push_neg at hall
    obtain ⟨s1, hs1mem, hs1⟩ := hall
    obtain ⟨j, hj, hfirst, hmax⟩ :=
      exists_first_argmax scores (by rintro rfl; simp at hslen)
    have hmp : f32MIN < scores.getD j 0 := by
      obtain ⟨k, hk, hkv⟩ := exists_index_of_mem scores s1 hs1mem
      calc f32MIN < s1 := hs1
        _ = scores.getD k 0 := hkv.symm
        _ ≤ scores.getD j 0 := hmax k hk
    have hbc := best_class_first_argmax scores f32MIN 0 0 j (by omega) hj hfirst hmax hmp
    rw [Nat.zero_add] at hbc
    have hprob : b.prob = scores.getD j 0 := by rw [hbeq]; simp [hbc]
    have hcls : b.cls = j := by rw [hbeq]; simp [hbc]
    refine ⟨by rw [hcls]; exact hj, by rw [hcls, hprob], ?_, ?_⟩
    · intro s hs
      obtain ⟨k, hk, hkv⟩ := exists_index_of_mem scores s hs
      rw [hprob, ← hkv]
      exact hmax k hk
    · intro jp hjp
      rw [hcls] at hjp
      rw [hprob]
      exact hfirst jp hjp

/-- C5 counterexample: on bigRow (65536 zero scores followed by a single
score 1) the unique maximal score sits at index 65536, but the extracted box
has class 0 — the `i as u16` cast wraps the winning index 65536 to 0 — and
score index 0 holds 0, not the box prob 1: the class is not the first index
attaining the maximum. -/
theorem bbox_from_row_first_argmax_cex :
    bbox_from_row bigRow = some ⟨1, 0, 0, 0, 0, 0⟩ ∧
    (bigRow.drop 4).getD 0 0 ≠ (1 : ℚ) ∧
    (bigRow.drop 4).getD 65536 0 = (1 : ℚ) := by
  have hrep : ∀ (n mc i : ℕ), best_class (List.replicate n (0 : ℚ) ++ [1]) 0 mc i =
      (1, (i + n) % 65536) := by
    intro n
    induction n with
    | zero =>
      intro mc i
      rw [List.replicate_zero, List.nil_append, best_class_cons,
        if_pos (by norm_num : (0 : ℚ) < 1), best_class_nil, Nat.add_zero]
    | succ np ih =>
      intro mc i
      rw [List.replicate_succ, List.cons_append, best_class_cons,
        if_neg (lt_irrefl (0 : ℚ)), ih mc (i + 1)]
      congr 1
      omega
  have hbig : best_class (List.replicate 65536 (0 : ℚ) ++ [1]) f32MIN 0 0 = (1, 0) := by
    have h65536 : List.replicate 65536 (0 : ℚ) = 0 :: List.replicate 65535 (0 : ℚ) := by
      rw [← List.replicate_succ]
    rw [h65536, List.cons_append, best_class_cons,
      if_pos (by norm_num [f32MIN] : f32MIN < 0), hrep 65535 (0 % 65536) (0 + 1)]
  have hform : bbox_from_row bigRow =
      some { prob := (best_class (List.replicate 65536 (0 : ℚ) ++ [1]) f32MIN 0 0).1
             cls := (best_class (List.replicate 65536 (0 : ℚ) ++ [1]) f32MIN 0 0).2
             cx := rustRound 0, cy := rustRound 0
             w := rustRound 0, h := rustRound 0 } := rfl
  have hdrop : bigRow.drop 4 = List.replicate 65536 (0 : ℚ) ++ [1] := rfl
  refine ⟨?_, ?_, ?_⟩
  · rw [hform, hbig]
    norm_num [rustRound]
  · rw [hdrop]
    have hlen : (0 : ℕ) < (List.replicate 65536 (0 : ℚ)).length := by
      rw [List.length_replicate]
      norm_num
    rw [List.getD_append _ _ _ _ hlen]
    have h65536 : List.replicate 65536 (0 : ℚ) = 0 :: List.replicate 65535 (0 : ℚ) := by
      rw [← List.replicate_succ]
    rw [h65536, List.getD_cons_zero]
    norm_num
  · rw [hdrop]
    have hlen : (List.replicate 65536 (0 : ℚ)).length ≤ 65536 := by
      rw [List.length_replicate]
    rw [List.getD_append_right _ _ _ _ hlen, List.length_replicate]
    rw [show (65536 - 65536 : ℕ) = 0 from by norm_num, List.getD_cons_zero]

/-- Witness for bbox_from_row_first_argmax: on the 1-score row
[0, 0, 0, 0, 5] the extracted box (prob 5, class 0) points back at the score
vector: index 0 attains the prob, in bounds. -/
theorem bbox_from_row_first_argmax_witness :
    ([(0 : ℚ), 0, 0, 0, 5].drop 4).getD (⟨5, 0, 0, 0, 0, 0⟩ : BBox).cls 0 =
      (⟨5, 0, 0, 0, 0, 0⟩ : BBox).prob ∧
    (⟨5, 0, 0, 0, 0, 0⟩ : BBox).cls < ([(0 : ℚ), 0, 0, 0, 5].drop 4).length := by
  have hb : bbox_from_row [(0 : ℚ), 0, 0, 0, 5] = some ⟨5, 0, 0, 0, 0, 0⟩ := by
    have hform : bbox_from_row [(0 : ℚ), 0, 0, 0, 5] =
        some { prob := (best_class [(5 : ℚ)] f32MIN 0 0).1
               cls := (best_class [(5 : ℚ)] f32MIN 0 0).2
               cx := rustRound 0, cy := rustRound 0
               w := rustRound 0, h := rustRound 0 } := rfl
    have hbc : best_class [(5 : ℚ)] f32MIN 0 0 = (5, 0) := by
      rw [best_class_cons, if_pos (by norm_num [f32MIN] : f32MIN < 5), best_class_nil]
    rw [hform, hbc]
    norm_num [rustRound]
  have h := bbox_from_row_first_argmax [(0 : ℚ), 0, 0, 0, 5] ⟨5, 0, 0, 0, 0, 0⟩ hb
    (by norm_num) (by norm_num)
    (by intro s hs; simp at hs; rw [hs]; norm_num [f32MIN])
  exact ⟨h.2.1, h.1⟩

/-- C6: the source treats a 4-column row (empty score sub-vector) NOT as a
fatal error: bbox_from_row returns the defaulted box with prob f32::MIN and
class 0 (the fold over the empty enumeration returns its initial
accumulator), and the whole extraction call succeeds; only rows with fewer
than 4 columns make the call fail.  This contradicts the claim, which the
spec itself flags as mandating a behaviour different from the source. -/
theorem bbox_from_row_degenerate_row :
    bbox_from_row [1, 2, 3, 4] = some ⟨f32MIN, 0, 1, 2, 3, 4⟩ ∧
    matrix_to_bboxes [[1, 2, 3, 4]] = some [⟨f32MIN, 0, 1, 2, 3, 4⟩] ∧
    bbox_from_row [1, 2, 3] = none := by
  have h1 : bbox_from_row [(1 : ℚ), 2, 3, 4] = some ⟨f32MIN, 0, 1, 2, 3, 4⟩ := by
    have hform : bbox_from_row [(1 : ℚ), 2, 3, 4] =
        some { prob := (best_class [] f32MIN 0 0).1
               cls := (best_class [] f32MIN 0 0).2
               cx := rustRound 1, cy := rustRound 2
               w := rustRound 3, h := rustRound 4 } := rfl
    rw [hform, best_class_nil]
    norm_num [rustRound]
  refine ⟨h1, ?_, rfl⟩
  unfold matrix_to_bboxes
  simp [List.mapM, List.mapM.loop, h1]

/-! Lemmas about the chunking of the matrix decoder. -/

theorem listChunks_nil (n : ℕ) : listChunks n [] = [] := by
  rw [listChunks]
  simp

theorem listChunks_pos (n : ℕ) (l : List ℕ) (hn : n ≠ 0) (hl : l ≠ []) :
    listChunks n l = l.take n :: listChunks n (l.drop n) := by
  rw [listChunks]
  rw [dif_neg (not_or.mpr ⟨hn, hl⟩)]

theorem listChunks_spec (n : ℕ) (hn : 0 < n) :
    ∀ (R : ℕ) (l : List ℕ), l.length = R * n →
      (listChunks n l).length = R ∧
      ∀ i, i < R → (listChunks n l).getD i [] = (l.drop (i * n)).take n := by
  intro R
  induction R with
  | zero =>
    intro l hl
    have hnil : l = [] := List.eq_nil_of_length_eq_zero (by rw [hl]; ring)
    subst hnil
    rw [listChunks_nil]
    exact ⟨rfl, fun i hi => absurd hi (by omega)⟩
  | succ Rp ih =>
    intro l hl
    have hlne : l ≠ [] := by
      intro he
      rw [he] at hl
      simp at hl
      omega
    rw [listChunks_pos n l (by omega) hlne]
    have hdl : (l.drop n).length = Rp * n := by
      rw [List.length_drop, hl, Nat.succ_mul]
      omega
    obtain ⟨ihlen, ihget⟩ := ih (l.drop n) hdl
    refine ⟨by simp [ihlen], ?_⟩
    intro i hi
    cases i with
    | zero =>
      rw [List.getD_cons_zero]
      simp
    | succ ip =>
      rw [List.getD_cons_succ, ihget ip (by omega), List.drop_drop]
      have hidx : n + ip * n = (ip + 1) * n := by ring
      rw [hidx]

theorem listChunks_chunk_length (n : ℕ) (hn : 0 < n) (R : ℕ) (l : List ℕ)
    (hl : l.length = R * n) : ∀ c ∈ listChunks n l, c.length = n := by
  intro c hc
  obtain ⟨⟨k, hk⟩, rfl⟩ := List.mem_iff_get.mp hc
  have hlen := (listChunks_spec n hn R l hl).1
  have hkR : k < R := by omega
  have hget := (listChunks_spec n hn R l hl).2 k hkR
  have hgd : (listChunks n l).get ⟨k, hk⟩ = (l.drop (k * n)).take n := by
    rw [← List.getD_eq_get (listChunks n l) [] hk]
    exact hget
  rw [hgd, List.length_take, List.length_drop, hl]
  have h3 : n + k * n ≤ R * n := by
    calc n + k * n = (k + 1) * n := by ring
      _ ≤ R * n := Nat.mul_le_mul_right n (by omega)
  exact min_eq_left (Nat.le_sub_of_add_le h3)

theorem getD_map_lists (f : List ℕ → List ℚ) (l : List (List ℕ)) (i : ℕ)
    (hi : i < l.length) : (l.map f).getD i [] = f (l.getD i []) := by
  rw [List.getD_eq_getElem _ _ (by simpa using hi), List.getD_eq_getElem _ _ hi,
    List.getElem_map]

theorem getD_map_q (decode : List ℕ → ℚ) (l : List (List ℕ)) (j : ℕ)
    (hj : j < l.length) : (l.map decode).getD j 0 = decode (l.getD j []) := by
  rw [List.getD_eq_getElem _ _ (by simpa using hj), List.getD_eq_getElem _ _ hj,
    List.getElem_map]

/-- C7 (amended): the decoder fails (the call aborts, modelled as none)
whenever the buffer length differs from rows*columns*4, or the row byte-width
columns*4 is zero, or — the amendment — rows = 0 (the source asserts
binary.len() >= row_size, which fails for zero rows even though the stated
preconditions hold); it never truncates or pads.  When the length matches and
rows and columns are positive it produces exactly rows rows of columns
decoded 32-bit floats, read row-major and contiguously: entry (i, j) is the
decode of bytes [4*(i*columns + j), 4*(i*columns + j) + 4). -/
theorem binary_to_matrix_spec (decode : List ℕ → ℚ) (binary : List ℕ)
    (rows columns : ℕ) :
    ((binary.length ≠ rows * columns * 4 ∨ columns = 0 ∨ rows = 0) →
      binary_to_matrix decode binary rows columns = none) ∧
    (binary.length = rows * columns * 4 → 0 < columns → 0 < rows →
      (binary_to_matrix decode binary rows columns).isSome = true ∧
      ((binary_to_matrix decode binary rows columns).getD []).length = rows ∧
      (∀ row ∈ (binary_to_matrix decode binary rows columns).getD [],
        row.length = columns) ∧
      (∀ i j : ℕ, i < rows → j < columns →
        (((binary_to_matrix decode binary rows columns).getD []).getD i []).getD j 0 =
          decode ((binary.drop ((i * columns + j) * 4)).take 4))) := by
  constructor
  · intro hfail
    simp only [binary_to_matrix]
    split_ifs with h1 h2 h3 h4
    · rfl
    · rfl
    · rfl
    · rfl
    · exfalso
      have h2e : binary.length = rows * (columns * 4) := not_not.mp h2
      rcases hfail with hlen | hc | hr
      · exact hlen (by rw [h2e, Nat.mul_assoc])
      · exact h1 (by rw [hc])
      · apply h3
        rw [h2e, hr, Nat.zero_mul]
        exact Nat.pos_of_ne_zero h1
  · intro hlen hc hr
    have hc4 : 0 < columns * 4 := by omega
    have hlen2 : binary.length = rows * (columns * 4) := by rw [hlen]; ring
    have heq : binary_to_matrix decode binary rows columns =
        some ((listChunks (columns * 4) binary).map
          (fun chunk => (listChunks 4 chunk).map decode)) := by
      simp only [binary_to_matrix]
      rw [if_neg (by omega : ¬ columns * 4 = 0)]
      rw [if_neg (not_not_intro hlen2)]
      rw [if_neg (not_lt.mpr (by
        rw [hlen2]
        calc columns * 4 = 1 * (columns * 4) := by ring
          _ ≤ rows * (columns * 4) := Nat.mul_le_mul_right _ (by omega)))]
      rw [if_neg (not_not_intro (by rw [hlen2]; exact Nat.mul_mod_left rows (columns * 4)))]
    rw [heq]
    obtain ⟨houtlen, houtget⟩ := listChunks_spec (columns * 4) hc4 rows binary hlen2
    simp only [Option.getD_some, Option.isSome_some]
    refine ⟨trivial, by rw [List.length_map, houtlen], ?_, ?_⟩
    · intro row hrow
      obtain ⟨chunk, hchunk, rfl⟩ := List.mem_map.mp hrow
      have hclen : chunk.length = columns * 4 :=
        listChunks_chunk_length (columns * 4) hc4 rows binary hlen2 chunk hchunk
      have hspec4 := listChunks_spec 4 (by norm_num) columns chunk (by rw [hclen])
      rw [List.length_map, hspec4.1]
    · intro i j hi hj
      rw [getD_map_lists _ _ i (by rw [houtlen]; exact hi)]
      rw [houtget i hi]
      have hclen : ((binary.drop (i * (columns * 4))).take (columns * 4)).length =
          columns * 4 := by
        rw [List.length_take, List.length_drop, hlen2]
        have h3 : columns * 4 + i * (columns * 4) ≤ rows * (columns * 4) := by
          calc columns * 4 + i * (columns * 4) = (i + 1) * (columns * 4) := by ring
            _ ≤ rows * (columns * 4) := Nat.mul_le_mul_right _ (by omega)
        exact min_eq_left (Nat.le_sub_of_add_le h3)
      have hspec4 := listChunks_spec 4 (by norm_num) columns _ hclen
      rw [getD_map_q decode _ j (by rw [hspec4.1]; exact hj)]
      rw [hspec4.2 j hj]
      rw [List.drop_take, List.take_take, List.drop_drop]
      have hmin : (4 ⊓ (columns * 4 - j * 4)) = 4 := by
        have h4 : 4 + j * 4 ≤ columns * 4 := by
          calc 4 + j * 4 = (j + 1) * 4 := by ring
            _ ≤ columns * 4 := Nat.mul_le_mul_right _ (by omega)
        exact min_eq_left (Nat.le_sub_of_add_le h4)
      have hidx : i * (columns * 4) + j * 4 = (i * columns + j) * 4 := by ring
      rw [hmin, hidx]

/-- C7 counterexample: with rows = 0, columns = 3 and the empty buffer the
stated preconditions hold (0 = 0*3*4 and the row byte-width 12 is positive),
yet the decoder aborts (the assert binary.len() >= row_size fails) instead of
producing zero rows. -/
theorem binary_to_matrix_spec_cex :
    List.length ([] : List ℕ) = 0 * 3 * 4 ∧ 0 < 3 * 4 ∧
    binary_to_matrix decode0 [] 0 3 = none := by
  refine ⟨rfl, by norm_num, rfl⟩

/-- Witness for binary_to_matrix_spec: a 1-byte-row mismatch fails, and a
1x1 buffer of four bytes decodes to the single float decode0 of those
bytes. -/
theorem binary_to_matrix_spec_witness :
    binary_to_matrix decode0 [] 1 1 = none ∧
    (binary_to_matrix decode0 [0, 0, 0, 0] 1 1).isSome = true ∧
    (((binary_to_matrix decode0 [0, 0, 0, 0] 1 1).getD []).getD 0 []).getD 0 0 =
      decode0 (([0, 0, 0, 0].drop ((0 * 1 + 0) * 4)).take 4) := by
  refine ⟨(binary_to_matrix_spec decode0 [] 1 1).1 (Or.inl (by norm_num)), ?_, ?_⟩
  · exact ((binary_to_matrix_spec decode0 [0, 0, 0, 0] 1 1).2 (by norm_num)
      (by norm_num) (by norm_num)).1
  · exact ((binary_to_matrix_spec decode0 [0, 0, 0, 0] 1 1).2 (by norm_num)
      (by norm_num) (by norm_num)).2.2.2 0 0 (by norm_num) (by norm_num)

/-! Lemmas about the transposer. -/

theorem transpose_length (m : List (List ℚ)) :
    (transpose_matrix m).length = matCols m := by
  unfold transpose_matrix
  rw [List.length_map, List.length_range]

theorem transpose_row_length (m : List (List ℚ)) :
    ∀ r ∈ transpose_matrix m, r.length = m.length := by
  intro r hr
  obtain ⟨j, hj, rfl⟩ := List.mem_map.mp hr
  rw [List.length_map, List.length_range]

theorem transpose_entry (m : List (List ℚ)) (i j : ℕ)
    (hi : i < m.length) (hj : j < matCols m) :
    ((transpose_matrix m).getD j []).getD i 0 = (m.getD i []).getD j 0 := by
  have h1 : (transpose_matrix m).getD j [] =
      (List.range m.length).map (fun ip => (m.getD ip []).getD j 0) := by
    unfold transpose_matrix
    rw [List.getD_eq_getElem _ _ (by simpa using hj), List.getElem_map, List.getElem_range]
  rw [h1]
  rw [List.getD_eq_getElem _ _ (by simpa using hi), List.getElem_map, List.getElem_range]

theorem matCols_transpose (m : List (List ℚ)) (hc : 0 < matCols m) :
    matCols (transpose_matrix m) = m.length := by
  unfold transpose_matrix
  obtain ⟨c, hcp⟩ : ∃ c, matCols m = c + 1 := ⟨matCols m - 1, by omega⟩
  rw [hcp, List.range_succ_eq_map, List.map_cons]
  show ((List.range m.length).map _).length = m.length
  rw [List.length_map, List.length_range]

theorem transpose_involution (m : List (List ℚ))
    (hu : ∀ r ∈ m, r.length = matCols m)
    (hc : m = [] ∨ 0 < matCols m) :
    transpose_matrix (transpose_matrix m) = m := by
  rcases hc with rfl | hc
  · rfl
  apply List.ext_get
  · rw [transpose_length (transpose_matrix m), matCols_transpose m hc]
  · intro n h1 h2
    rw [← List.getD_eq_get _ [] h1]
    have hTme : transpose_matrix (transpose_matrix m) =
        (List.range (matCols (transpose_matrix m))).map
          (fun jp => (List.range (transpose_matrix m).length).map
            (fun ip => ((transpose_matrix m).getD ip []).getD jp 0)) := rfl
    rw [hTme]
    rw [List.getD_eq_getElem _ _
      (by rw [List.length_map, List.length_range, matCols_transpose m hc]; exact h2),
      List.getElem_map, List.getElem_range]
    apply List.ext_get
    · rw [List.length_map, List.length_range, transpose_length]
      exact (hu (m.get ⟨n, h2⟩) (List.get_mem m n h2)).symm
    · intro k h3 h4
      have hk : k < matCols m := by
        rw [List.length_map, List.length_range, transpose_length] at h3
        exact h3
      rw [← List.getD_eq_get _ 0 h3]
      rw [List.getD_eq_getElem _ _ h3, List.getElem_map, List.getElem_range]
      rw [transpose_entry m n k h2 hk]
      rw [List.getD_eq_get m [] h2, List.getD_eq_get _ 0 h4]

/-- C8 (amended): a single transpose swaps the dimensions (matCols rows, each
of the input length) with output entry [j][i] equal to input entry [i][j];
the empty matrix transposes to the empty matrix; and for every matrix with
all rows of equal length, transposing twice yields the original provided the
matrix is empty or its rows are non-empty (for a non-empty matrix of empty
rows the double transpose collapses to [], see the counterexample). -/
theorem transpose_matrix_spec (m : List (List ℚ))
    (hu : ∀ r ∈ m, r.length = matCols m) :
    ((transpose_matrix m).length = matCols m ∧
     (∀ r ∈ transpose_matrix m, r.length = m.length) ∧
     (∀ i j : ℕ, i < m.length → j < matCols m →
       ((transpose_matrix m).getD j []).getD i 0 = (m.getD i []).getD j 0)) ∧
    ((m = [] ∨ 0 < matCols m) → transpose_matrix (transpose_matrix m) = m) ∧
    transpose_matrix [] = [] :=
  ⟨⟨transpose_length m, transpose_row_length m,
    fun i j hi hj => transpose_entry m i j hi hj⟩,
   fun hc => transpose_involution m hu hc, rfl⟩

/-- C8 counterexample: the matrix [[]] has one (empty) row, so all its rows
have equal length, yet transposing it twice yields [] and not [[]]:
transposition is not an involution on it. -/
theorem transpose_matrix_spec_cex :
    (∀ r ∈ [([] : List ℚ)], r.length = matCols [([] : List ℚ)]) ∧
    transpose_matrix (transpose_matrix [([] : List ℚ)]) ≠ [([] : List ℚ)] := by
  constructor
  · intro r hr
    rw [List.mem_singleton] at hr
    rw [hr]
    rfl
  · intro h
    exact absurd h (by decide)

/-- Witness for transpose_matrix_spec on the 2x2 matrix [[1,2],[3,4]]: the
transposed entry [1][0] equals the input entry [0][1], and the double
transpose restores the matrix. -/
theorem transpose_matrix_spec_witness :
    ((transpose_matrix [[(1 : ℚ), 2], [3, 4]]).getD 1 []).getD 0 0 =
      (([[(1 : ℚ), 2], [3, 4]].getD 0 []).getD 1 0) ∧
    transpose_matrix (transpose_matrix [[(1 : ℚ), 2], [3, 4]]) =
      [[(1 : ℚ), 2], [3, 4]] := by
  have hu : ∀ r ∈ [[(1 : ℚ), 2], [3, 4]], r.length = matCols [[(1 : ℚ), 2], [3, 4]] := by
    intro r hr
    rcases List.mem_cons.mp hr with rfl | hr
    · rfl
    · rw [List.mem_singleton] at hr
      rw [hr]
      rfl
  exact ⟨(transpose_matrix_spec [[(1 : ℚ), 2], [3, 4]] hu).1.2.2 0 1 (by norm_num) (by
      show (1 : ℕ) < 2
      norm_num),
    (transpose_matrix_spec [[(1 : ℚ), 2], [3, 4]] hu).2.1 (Or.inr (by
      show (0 : ℕ) < 2
      norm_num))⟩
